import Mathlib

/-!
Verification development for the WannabeGit repository state machine.

The Python source is shallowly embedded: file contents are byte lists,
the persisted repository state (commit directories, HEAD, branch refs,
index.json, working tree) is an explicit record, and each command is a
pure Lean function mirroring the corresponding Python function line by
line.  I/O failures are injected through an explicit oracle (one tick
per fallible operating-system call, in program order); an oracle that
answers `true` at a tick makes that call raise `IOError`/`OSError`.

Modelling conventions, fixed once here:
* Paths are `String`s already relative to the repository root.
  `os.path.relpath(p, ".")` is the identity on such paths and is
  modelled as the identity; `os.path.normpath` is implemented below.
* SHA-1 (`hash_file_content`) and the commit-id digest
  (`generate_commit_id`) are cryptographic primitives taken as explicit
  function parameters `hashC` / `genId`; nothing proved here depends on
  their definitions, only on where the source calls them.
* Python `dict`s keep insertion order; they are modelled as association
  lists with the same update discipline (`aset` replaces in place or
  appends).  Python `set` has an unspecified iteration order; wherever
  the source iterates a set, the embedding takes the iteration order as
  an input list.
-/

/-! ## Byte strings and association lists -/

/-- File contents: a sequence of bytes. -/
abbrev Bytes := List Nat

/-- Association-list lookup, mirroring Python `dict` access and
`os.path.exists` checks on path-keyed stores. -/
def alookup (k : String) : List (String × α) → Option α
  | [] => none
  | (k₁, v) :: rest => if k = k₁ then some v else alookup k rest

/-- Association-list update: replace the first binding of `k`, or append
a new one (Python `d[k] = v`, which keeps insertion order). -/
def aset (k : String) (v : α) : List (String × α) → List (String × α)
  | [] => [(k, v)]
  | (k₁, v₁) :: rest =>
    if k₁ = k then (k, v) :: rest else (k₁, v₁) :: aset k v rest

/-- Modify the binding of `k` in place (used for growing a commit
directory that already exists on disk). -/
def amodify (k : String) (f : α → α) : List (String × α) → List (String × α)
  | [] => []
  | (k₁, v) :: rest =>
    if k₁ = k then (k₁, f v) :: rest else (k₁, v) :: amodify k f rest

/-- Remove every binding of `k` (Python `shutil.rmtree` on the
directory named `k`). -/
def aremove (k : String) : List (String × α) → List (String × α)
  | [] => []
  | (k₁, v) :: rest =>
    if k₁ = k then aremove k rest else (k₁, v) :: aremove k rest

theorem alookup_aset_self (k : String) (v : α) (l : List (String × α)) :
    alookup k (aset k v l) = some v := by
  induction l with
  | nil => simp [aset, alookup]
  | cons p rest ih =>
    obtain ⟨k₁, v₁⟩ := p
    by_cases h : k₁ = k
    · simp [aset, alookup, h]
    · have h₂ : ¬ (k = k₁) := fun hc => h hc.symm
      simp [aset, alookup, h, h₂, ih]

theorem alookup_aset_ne (k k₁ : String) (v : α) (l : List (String × α))
    (h : k ≠ k₁) : alookup k (aset k₁ v l) = alookup k l := by
  induction l with
  | nil => simp [aset, alookup, h]
  | cons p rest ih =>
    obtain ⟨k₂, v₂⟩ := p
    by_cases h₂ : k₂ = k₁
    · subst h₂
      simp [aset, alookup, h]
    · by_cases h₃ : k = k₂
      · subst h₃
        simp [aset, alookup, h₂]
      · simp [aset, alookup, h₂, h₃, ih]

theorem alookup_amodify_ne (k k₁ : String) (f : α → α) (l : List (String × α))
    (h : k ≠ k₁) : alookup k (amodify k₁ f l) = alookup k l := by
  induction l with
  | nil => simp [amodify]
  | cons p rest ih =>
    obtain ⟨k₂, v₂⟩ := p
    by_cases h₂ : k₂ = k₁
    · subst h₂
      simp [amodify, alookup, h, ih]
    · by_cases h₃ : k = k₂
      · subst h₃
        simp [amodify, alookup, h₂]
      · simp [amodify, alookup, h₂, h₃, ih]

theorem aremove_amodify (k : String) (f : α → α) (l : List (String × α)) :
    aremove k (amodify k f l) = aremove k l := by
  induction l with
  | nil => simp [amodify, aremove]
  | cons p rest ih =>
    obtain ⟨k₁, v⟩ := p
    by_cases h : k₁ = k
    · simp [amodify, aremove, h, ih]
    · simp [amodify, aremove, h, ih]

theorem aremove_append_self (k : String) (v : α) (l : List (String × α)) :
    aremove k (l ++ [(k, v)]) = aremove k l := by
  induction l with
  | nil => simp [aremove]
  | cons p rest ih =>
    obtain ⟨k₁, v₁⟩ := p
    by_cases h : k₁ = k
    · simp [aremove, h, ih]
    · simp [aremove, h, ih]

theorem aremove_of_alookup_none (k : String) (l : List (String × α))
    (h : alookup k l = none) : aremove k l = l := by
  induction l with
  | nil => simp [aremove]
  | cons p rest ih =>
    obtain ⟨k₁, v⟩ := p
    by_cases h₁ : k = k₁
    · simp [alookup, h₁] at h
    · have h₂ : ¬ (k₁ = k) := fun hc => h₁ hc.symm
      simp [alookup, h₁] at h
      simp [aremove, h₂, ih h]

/-! ## Lexicographic path order (Python string comparison) -/

/-- Python compares strings lexicographically by code point; `sorted`
uses this order.  Structural so the kernel can evaluate it. -/
def lexLe : List Char → List Char → Bool
  | [], _ => true
  | _ :: _, [] => false
  | a :: as, b :: bs =>
    if a.toNat < b.toNat then true
    else if a.toNat = b.toNat then lexLe as bs
    else false

/-- String order used by Python `sorted` on path sets. -/
def strLe (a b : String) : Bool := lexLe a.toList b.toList

/-- `strLe` as a relation, for `List.Sorted`. -/
def strLeRel (a b : String) : Prop := strLe a b = true

instance : DecidableRel strLeRel := fun a b => by
  unfold strLeRel
  infer_instance

theorem lexLe_total (a b : List Char) : lexLe a b = true ∨ lexLe b a = true := by
  induction a generalizing b with
  | nil => left; simp [lexLe]
  | cons x xs ih =>
    cases b with
    | nil => right; simp [lexLe]
    | cons y ys =>
      rcases Nat.lt_trichotomy x.toNat y.toNat with h | h | h
      · left; simp [lexLe, h]
      · rcases ih ys with h₂ | h₂
        · left; simp [lexLe, h, h₂]
        · right; simp [lexLe, h.symm, h₂]
      · right; simp [lexLe, h]

theorem lexLe_trans {a b c : List Char} (h₁ : lexLe a b = true)
    (h₂ : lexLe b c = true) : lexLe a c = true := by
  induction a generalizing b c with
  | nil => simp [lexLe]
  | cons x xs ih =>
    cases b with
    | nil => simp [lexLe] at h₁
    | cons y ys =>
      cases c with
      | nil => simp [lexLe] at h₂
      | cons z zs =>
        simp only [lexLe] at h₁ h₂ ⊢
        split at h₁
        · rename_i hxy
          split at h₂
          · rename_i hyz
            simp [Nat.lt_trans hxy hyz]
          · split at h₂
            · rename_i hyz
              simp [hyz ▸ hxy]
            · exact absurd h₂ (by simp)
        · split at h₁
          · rename_i hxy
            split at h₂
            · rename_i hyz
              simp [hxy ▸ hyz]
            · split at h₂
              · rename_i hyz
                have hxz : x.toNat = z.toNat := hxy.trans hyz
                by_cases hlt : x.toNat < z.toNat
                · simp [hlt]
                · simp [hlt, hxz, ih h₁ h₂]
              · exact absurd h₂ (by simp)
          · exact absurd h₁ (by simp)

instance : IsTotal String strLeRel :=
  ⟨fun a b => lexLe_total a.toList b.toList⟩

instance : IsTrans String strLeRel :=
  ⟨fun _ _ _ h₁ h₂ => lexLe_trans h₁ h₂⟩

/-! ## `fnmatch` (Python glob matching)

`fnmatch.fnmatch` on POSIX: `*` matches any run of characters
(including `/`), `?` any single character, `[...]` a character set
(leading `!` negates, a first `]` is literal, `-` makes a range, an
unterminated `[` is literal).  Implemented with explicit fuel so the
kernel can evaluate it; each recursive call shortens the pattern or the
string, so `pattern.length + string.length + 1` ticks always suffice. -/

/-- Membership of `c` in a bracket set body (ranges via `-`). -/
def charInSet (c : Char) : List Char → Bool
  | a :: '-' :: b :: rest =>
    (decide (a.toNat ≤ c.toNat) && decide (c.toNat ≤ b.toNat)) || charInSet c rest
  | a :: rest => (a == c) || charInSet c rest
  | [] => false

/-- Scan a bracket expression body up to the closing `]`; `none` if the
bracket is unterminated. -/
def scanSet : List Char → Option (List Char × List Char)
  | [] => none
  | ']' :: r => some ([], r)
  | c :: r =>
    match scanSet r with
    | some (cs, rest) => some (c :: cs, rest)
    | none => none

/-- Parse the pattern just after an opening `[`: returns
(negated, set body, rest of pattern). -/
def parseSet (l : List Char) : Option (Bool × List Char × List Char) :=
  match l with
  | '!' :: r =>
    match r with
    | ']' :: r₂ => (scanSet r₂).map (fun p => (true, ']' :: p.1, p.2))
    | _ => (scanSet r).map (fun p => (true, p.1, p.2))
  | ']' :: r₂ => (scanSet r₂).map (fun p => (false, ']' :: p.1, p.2))
  | _ => (scanSet l).map (fun p => (false, p.1, p.2))

/-- Fueled glob matcher. -/
def fnmatchFuel : Nat → List Char → List Char → Bool
  | 0, _, _ => false
  | _ + 1, [], [] => true
  | fuel + 1, '*' :: ps, s =>
    fnmatchFuel fuel ps s ||
      (match s with
       | [] => false
       | _ :: s₁ => fnmatchFuel fuel ('*' :: ps) s₁)
  | fuel + 1, '?' :: ps, _ :: s => fnmatchFuel fuel ps s
  | fuel + 1, '[' :: ps, c :: s =>
    (match parseSet ps with
     | some (neg, set, rest) => (charInSet c set != neg) && fnmatchFuel fuel rest s
     | none => ('[' == c) && fnmatchFuel fuel ps s)
  | fuel + 1, p :: ps, c :: s => (p == c) && fnmatchFuel fuel ps s
  | _, _, _ => false

/-- `fnmatch.fnmatch(s, p)` (POSIX, case-sensitive). -/
def fnmatch (s p : List Char) : Bool :=
  fnmatchFuel (p.length + s.length + 1) p s

/-! ## `os.path` helpers -/

/-- Split a character list on a separator (Python `str.split(sep)`). -/
def splitOnChar (sep : Char) : List Char → List (List Char)
  | [] => [[]]
  | c :: r =>
    match splitOnChar sep r with
    | [] => [[]]
    | s :: ss => if c = sep then [] :: s :: ss else (c :: s) :: ss

/-- `os.path.basename`: everything after the last `/`. -/
def basenameChars (l : List Char) : List Char :=
  l.foldl (fun acc c => if c = '/' then [] else acc ++ [c]) []

/-- One step of POSIX `normpath` component processing. -/
def normComp (isAbs : Bool) (stack : List (List Char)) (comp : List Char) :
    List (List Char) :=
  if comp = [] ∨ comp = ['.'] then stack
  else if comp = ['.', '.'] then
    match stack with
    | [] => if isAbs then [] else [['.', '.']]
    | top :: rest => if top = ['.', '.'] then comp :: stack else rest
  else comp :: stack

/-- POSIX `os.path.normpath` for single-rooted paths (the doubled
leading slash special case does not arise for repository paths). -/
def normpath (p : String) : String :=
  let cs := p.toList
  if cs = [] then "."
  else
    let isAbs := cs.head? = some '/'
    let comps := splitOnChar '/' cs
    let stack := (comps.foldl (normComp isAbs) []).reverse
    let body := String.mk (stack.foldr
      (fun c acc => if acc = [] then c else c ++ '/' :: acc) [])
    if isAbs then String.mk ('/' :: body.toList)
    else if stack = [] then "." else body

/-! ## Ignore patterns (`wannabegit/ignore.py`) -/

/-- `DEFAULT_IGNORE_PATTERNS` from `ignore.py`. -/
def DEFAULT_IGNORE_PATTERNS : List String :=
  [".wannabegit", ".wannabegit/*", "*.pyc", "__pycache__", "__pycache__/*",
   "*.pyo", "*.pyd", ".DS_Store", "Thumbs.db", "*.swp", "*.swo", "*~",
   ".*.swp"]

/-- `IgnorePattern.__init__`: the parsed form of one rule.  The stripped
pattern is kept as characters so matching is structural. -/
structure IgnorePattern where
  original : String
  negation : Bool
  pattern : List Char
  directory_only : Bool
  is_absolute : Bool

/-- Parse a rule string exactly as `IgnorePattern.__init__` does:
strip a leading `!` (negation), a trailing `/` (directory-only), then a
leading `/` (anchored). -/
def IgnorePattern.parse (p : String) : IgnorePattern :=
  let cs := p.toList
  let negation := cs.head? = some '!'
  let cs₁ := if negation then cs.tail else cs
  let directory_only := cs₁.getLast? = some '/'
  let cs₂ := if directory_only then cs₁.dropLast else cs₁
  let is_absolute := cs₂.head? = some '/'
  let cs₃ := if is_absolute then cs₂.tail else cs₂
  { original := p, negation := negation, pattern := cs₃,
    directory_only := directory_only, is_absolute := is_absolute }

/-- `IgnorePattern.matches(path, is_dir)`.  The source also computes
`path_parts` but never reads it; only `pattern_parts` drives the
basename-versus-full-path choice. -/
def IgnorePattern.matches (pat : IgnorePattern) (path : String)
    (is_dir : Bool) : Bool :=
  if pat.directory_only && !is_dir then false
  else
    let pathCs := path.toList.map (fun c => if c = '\\' then '/' else c)
    if pat.is_absolute then fnmatch pathCs pat.pattern
    else
      let pattern_parts := splitOnChar '/' pat.pattern
      if pattern_parts.length = 1 then
        fnmatch (basenameChars pathCs) pat.pattern
      else
        fnmatch pathCs pat.pattern ||
          fnmatch pathCs ('*' :: '*' :: '/' :: pat.pattern)

/-- `IgnoreManager._load_patterns`: defaults first, then the user's
(already `strip()`ed, non-empty, non-comment) lines. -/
def load_patterns (userLines : List String) : List IgnorePattern :=
  (DEFAULT_IGNORE_PATTERNS ++ userLines).map IgnorePattern.parse

/-- `IgnoreManager.is_ignored`: normalize, then fold over the rules in
file order, the last matching rule deciding (its negation flag
inverted); default `False`.  `os.path.isdir` is passed in as `is_dir`;
`os.path.relpath(·, ".")` is the identity on the normalized relative
path. -/
def is_ignored (patterns : List IgnorePattern) (path : String)
    (is_dir : Bool) : Bool :=
  let rel_path := normpath path
  patterns.foldl
    (fun ignored pat =>
      if pat.matches rel_path is_dir then !pat.negation else ignored)
    false

/-- Specification-side restatement of §4.4 / the data-model invariant:
the last rule whose pattern matches decides, default `false`.  Used
only to compare against `is_ignored`. -/
def lastMatchWinsSpec (patterns : List IgnorePattern) (path : String)
    (is_dir : Bool) : Bool :=
  let rel_path := normpath path
  ((patterns.filter (fun pat => pat.matches rel_path is_dir)).getLast?).elim
    false (fun pat => !pat.negation)

/-! ## Repository state (`wannabegit/core.py`) -/

/-- One `staged_files` entry: `{hash, status}`. -/
structure StagedEntry where
  hash : String
  status : String
deriving DecidableEq

/-- `index.json`: `{tracked_files[], staged_files{path: {hash, status}}}`. -/
structure Index where
  tracked_files : List String
  staged_files : List (String × StagedEntry)
deriving DecidableEq

/-- The persisted `HEAD` file: missing/empty, a direct commit id
(detached), or `ref: refs/heads/<branch>` (symbolic). -/
inductive Head where
  | hEmpty : Head
  | direct (cid : String) : Head
  | symbolic (branch : String) : Head
deriving DecidableEq

/-- `meta.json` of one commit (the `stats` block is derived output and
carries no state). -/
structure CommitMeta where
  id : String
  message : String
  timestamp : String
  author_name : String
  author_email : String
  parent : Option String
  branch : String
  files : List String
deriving DecidableEq

/-- An on-disk commit directory: snapshot copies plus `meta.json`
(absent while a commit is mid-write). -/
structure CommitDir where
  files : List (String × Bytes)
  meta : Option CommitMeta
deriving DecidableEq

/-- The whole persisted repository state plus the working tree. -/
structure FS where
  commits : List (String × CommitDir)
  head : Head
  branches : List (String × String)
  index : Index
  working : List (String × Bytes)
  config_user_name : String
  config_user_email : String
deriving DecidableEq

/-- `Repository.get_head`: resolve a symbolic HEAD through its branch
ref file; missing ref file or empty HEAD give `None`. -/
def get_head (fs : FS) : Option String :=
  match fs.head with
  | .hEmpty => none
  | .direct cid => some cid
  | .symbolic b => alookup b fs.branches

/-- `Repository.get_current_branch`: the branch name when HEAD is
symbolic, else `None`. -/
def get_current_branch (fs : FS) : Option String :=
  match fs.head with
  | .symbolic b => some b
  | _ => none

/-- `Repository.set_head(commit_id, branch)`: symbolic HEAD plus branch
ref update when a branch is given, detached HEAD otherwise. -/
def set_head (fs : FS) (commit_id : String) (branch : Option String) : FS :=
  match branch with
  | some b =>
    { fs with head := .symbolic b, branches := aset b commit_id fs.branches }
  | none => { fs with head := .direct commit_id }

/-- `Repository.branch_exists`. -/
def branch_exists (fs : FS) (name : String) : Bool :=
  (alookup name fs.branches).isSome

/-- `get_file_hash`: read the file and hash it; any `IOError` (missing
file included) yields `""`.  The read result is `none` when the path
does not exist and `Except.error ()` when it exists but is unreadable;
`hashC` is the SHA-1 primitive `hash_file_content`. -/
def get_file_hash (hashC : Bytes → String)
    (read : Option (Except Unit Bytes)) : String :=
  match read with
  | some (.ok b) => hashC b
  | _ => ""

/-! ## Branch creation (`wannabegit/commands/branch.py`) -/

/-- The observable outcome of `cmd_branch` (which error message was
printed with the exit code 1, or the commit the new branch points to). -/
inductive BranchResult where
  | invalidName : BranchResult
  | alreadyExists : BranchResult
  | noCommits : BranchResult
  | created (cid : String) : BranchResult
deriving DecidableEq

/-- `cmd_branch(name)`: reject empty names and names containing `/` or
the space character; reject existing names; otherwise write the branch
ref file at the current HEAD commit. -/
def cmd_branch (fs : FS) (name : String) : BranchResult × FS :=
  if name = "" ∨ name.toList.contains '/' ∨ name.toList.contains ' ' then
    (.invalidName, fs)
  else if branch_exists fs name then
    (.alreadyExists, fs)
  else
    match get_head fs with
    | none => (.noCommits, fs)
    | some cid =>
      (.created cid, { fs with branches := aset name cid fs.branches })

/-! ## Commit chain walk (`get_commit_tree` in `commands/commit.py`) -/

/-- The fueled body of `get_commit_tree`'s `while` loop: follow
`parent` links, stop on a missing id, a missing/unreadable `meta.json`
(its `read_json` default `{}` is falsy), or the first repeated id. -/
def walkFuel (store : List (String × CommitMeta)) :
    Nat → Option String → List String → List CommitMeta
  | 0, _, _ => []
  | fuel + 1, current, visited =>
    match current with
    | none => []
    | some c =>
      if c ∈ visited then []
      else
        match alookup c store with
        | none => []
        | some m => m :: walkFuel store fuel m.parent (c :: visited)

/-- `get_commit_tree(commit_id)` over the metadata store (id →
`meta.json`).  `store.length + 1` fuel is shown below to reach the
loop's fixpoint. -/
def get_commit_tree (store : List (String × CommitMeta))
    (commit_id : Option String) : List CommitMeta :=
  walkFuel store (store.length + 1) commit_id []

theorem length_filter_mono (l : List α) (p q : α → Bool)
    (h : ∀ x, p x = true → q x = true) :
    (l.filter p).length ≤ (l.filter q).length := by
  induction l with
  | nil => simp
  | cons a t ih =>
    by_cases hp : p a = true
    · simp [List.filter, hp, h a hp]
      omega
    · simp only [List.filter, Bool.not_eq_true] at hp
      simp only [List.filter, hp]
      by_cases hq : q a = true
      · simp [hq]
        omega
      · simp only [Bool.not_eq_true] at hq
        simp [hq, ih]

theorem length_filter_lt (l : List α) (p q : α → Bool)
    (h : ∀ x, p x = true → q x = true) (c : α) (hc : c ∈ l)
    (hqc : q c = true) (hpc : p c = false) :
    (l.filter p).length < (l.filter q).length := by
  induction l with
  | nil => simp at hc
  | cons a t ih =>
    rcases List.mem_cons.mp hc with rfl | hct
    · simp only [List.filter, hpc, hqc]
      have := length_filter_mono t p q h
      simp
      omega
    · by_cases hp : p a = true
      · simp [List.filter, hp, h a hp, ih hct]
      · simp only [Bool.not_eq_true] at hp
        simp only [List.filter, hp]
        by_cases hq : q a = true
        · simp [hq]
          have := ih hct
          omega
        · simp only [Bool.not_eq_true] at hq
          simp [hq, ih hct]

theorem alookup_mem_keys {k : String} {v : α} {l : List (String × α)}
    (h : alookup k l = some v) : k ∈ l.map Prod.fst := by
  induction l with
  | nil => simp [alookup] at h
  | cons p rest ih =>
    obtain ⟨k₁, v₁⟩ := p
    by_cases h₁ : k = k₁
    · simp [h₁]
    · simp only [alookup, h₁, if_false] at h
      simp [ih h]

/-- Each loop iteration of `get_commit_tree` consumes a fresh store key,
so the chain length is bounded by the number of distinct keys left. -/
theorem walkFuel_length_le (store : List (String × CommitMeta)) :
    ∀ fuel cur vis, (walkFuel store fuel cur vis).length ≤
      (((store.map Prod.fst).dedup).filter (fun x => decide (x ∉ vis))).length := by
  intro fuel
  induction fuel with
  | zero => intro cur vis; simp [walkFuel]
  | succ n ih =>
    intro cur vis
    cases cur with
    | none => simp [walkFuel]
    | some c =>
      by_cases hv : c ∈ vis
      · simp [walkFuel, hv]
      · cases hm : alookup c store with
        | none => simp [walkFuel, hv, hm]
        | some m =>
          have hkey : c ∈ (store.map Prod.fst).dedup :=
            List.mem_dedup.mpr (alookup_mem_keys hm)
          have hstep := length_filter_lt ((store.map Prod.fst).dedup)
            (fun x => decide (x ∉ c :: vis)) (fun x => decide (x ∉ vis))
            (by
              intro x hx
              simp only [decide_eq_true_eq] at hx ⊢
              exact fun hmem => hx (List.mem_cons_of_mem _ hmem))
            c hkey (by simp [hv]) (by simp)
          have hrec := ih m.parent (c :: vis)
          simp only [walkFuel, hv, hm] at hrec hstep ⊢
          simp at hrec hstep ⊢
          omega

/-- Past the fixpoint, extra fuel does not change the walk. -/
theorem walkFuel_stable (store : List (String × CommitMeta)) :
    ∀ fuel₁ fuel₂ cur vis,
      (((store.map Prod.fst).dedup).filter (fun x => decide (x ∉ vis))).length + 1 ≤ fuel₁ →
      (((store.map Prod.fst).dedup).filter (fun x => decide (x ∉ vis))).length + 1 ≤ fuel₂ →
      walkFuel store fuel₁ cur vis = walkFuel store fuel₂ cur vis := by
  intro fuel₁
  induction fuel₁ with
  | zero => intro fuel₂ cur vis h₁; omega
  | succ n ih =>
    intro fuel₂ cur vis h₁ h₂
    cases fuel₂ with
    | zero => omega
    | succ m =>
      cases cur with
      | none => simp [walkFuel]
      | some c =>
        by_cases hv : c ∈ vis
        · simp [walkFuel, hv]
        · cases hm : alookup c store with
          | none => simp [walkFuel, hv, hm]
          | some meta =>
            have hkey : c ∈ (store.map Prod.fst).dedup :=
              List.mem_dedup.mpr (alookup_mem_keys hm)
            have hstep := length_filter_lt ((store.map Prod.fst).dedup)
              (fun x => decide (x ∉ c :: vis)) (fun x => decide (x ∉ vis))
              (by
                intro x hx
                simp only [decide_eq_true_eq] at hx ⊢
                exact fun hmem => hx (List.mem_cons_of_mem _ hmem))
              c hkey (by simp [hv]) (by simp)
            simp only [walkFuel, hv, hm, if_neg hv]
            have hr := ih m meta.parent (c :: vis) (by omega) (by omega)
            rw [hr]

/-! ## Failure oracle

Each fallible operating-system call inside a command's `try` block
consumes one tick, in program order; `oracle tick = true` makes that
call raise before performing its effect (for two-step writes the model
places the partial effect between the ticks, matching where the Python
call sequence can be interrupted). -/

/-- Environment model for `IOError`/`OSError` injection. -/
abbrev Oracle := Nat → Bool

/-- The failure-free environment. -/
def noFail : Oracle := fun _ => false

/-! ## Commit creation (`cmd_commit` in `commands/commit.py`) -/

/-- `os.makedirs(commit_path, exist_ok=True)`. -/
def makeCommitDir (fs : FS) (cid : String) : FS :=
  if (alookup cid fs.commits).isSome then fs
  else { fs with commits := fs.commits ++ [(cid, ⟨[], none⟩)] }

/-- `shutil.copy2(file_path, dest_path)` into the commit directory. -/
def putCommitFile (fs : FS) (cid f : String) (b : Bytes) : FS :=
  { fs with commits :=
      amodify cid (fun d => { d with files := aset f b d.files }) fs.commits }

/-- `write_json(commit_path/meta.json, metadata)`. -/
def putCommitMeta (fs : FS) (cid : String) (m : CommitMeta) : FS :=
  { fs with commits :=
      amodify cid (fun d => { d with meta := some m }) fs.commits }

/-- The `for file_path in staged_files.keys()` copy loop: skip paths no
longer on disk, otherwise `os.makedirs` (tick) then `shutil.copy2`
(tick) and record the path in `files_committed`. -/
def copyLoop (oracle : Oracle) (cid : String) :
    List String → FS → Nat → List String →
      Except (FS × Nat) (FS × Nat × List String)
  | [], fs, tick, acc => .ok (fs, tick, acc)
  | f :: rest, fs, tick, acc =>
    match alookup f fs.working with
    | none => copyLoop oracle cid rest fs tick acc
    | some b =>
      if oracle tick then .error (fs, tick + 1)
      else if oracle (tick + 1) then .error (fs, tick + 2)
      else copyLoop oracle cid rest (putCommitFile fs cid f b) (tick + 2)
        (acc ++ [f])

/-- The snapshot part of `cmd_commit`'s `try` block: create the commit
directory, copy every staged file, read the config (one tick; its own
`read_json` fallback still leaves a fallible `read_text`), and write
`meta.json`. -/
def snapshotPhase (oracle : Oracle) (fs : FS) (cid : String)
    (stagedKeys : List String) (metaOf : List String → CommitMeta) :
    Except (FS × Nat) (FS × Nat × List String) :=
  if oracle 0 then .error (fs, 1)
  else
    match copyLoop oracle cid stagedKeys (makeCommitDir fs cid) 1 [] with
    | .error e => .error e
    | .ok (fs₂, t, files) =>
      if oracle t then .error (fs₂, t + 1)
      else if oracle (t + 1) then .error (fs₂, t + 2)
      else .ok (putCommitMeta fs₂ cid (metaOf files), t + 2, files)

/-- `repo.set_head(commit_id, current_branch)` with tick accounting:
the symbolic case writes `HEAD` then the branch ref file (two separately
fallible writes), the detached case one write. -/
def refPhase (oracle : Oracle) (fs : FS) (cid : String)
    (branch : Option String) (t : Nat) : Except (FS × Nat) (FS × Nat) :=
  match branch with
  | some b =>
    if oracle t then .error (fs, t + 1)
    else
      let fs₁ := { fs with head := .symbolic b }
      if oracle (t + 1) then .error (fs₁, t + 2)
      else .ok ({ fs₁ with branches := aset b cid fs₁.branches }, t + 2)
  | none =>
    if oracle t then .error (fs, t + 1)
    else .ok ({ fs with head := .direct cid }, t + 1)

/-- The `except` handler's cleanup: `if os.path.exists(commit_path):
shutil.rmtree(commit_path)`. -/
def cleanupCommit (fs : FS) (cid : String) : FS :=
  if (alookup cid fs.commits).isSome then
    { fs with commits := aremove cid fs.commits }
  else fs

/-- The `commit_all` pre-pass: re-stage every tracked file still on
disk with its current hash and status `"modified"`. -/
def stage_all_tracked (hashC : Bytes → String) (fs : FS) (idx : Index) :
    Index :=
  let st := idx.tracked_files.foldl
    (fun st f =>
      match alookup f fs.working with
      | some b => aset f ⟨hashC b, "modified"⟩ st
      | none => st)
    idx.staged_files
  { idx with staged_files := st }

/-- The in-memory index `cmd_commit` works on after the optional
`commit_all` pre-pass. -/
def commitIndexOf (hashC : Bytes → String) (fs : FS) (commit_all : Bool) :
    Index :=
  if commit_all then stage_all_tracked hashC fs fs.index else fs.index

/-- The `metadata` dict written to `meta.json` (the derived `stats`
block omitted). -/
def mkCommitMeta (fs : FS) (cid message timestamp : String)
    (parent : Option String) (branch : Option String)
    (files : List String) : CommitMeta :=
  { id := cid, message := message, timestamp := timestamp,
    author_name := fs.config_user_name,
    author_email := fs.config_user_email,
    parent := parent, branch := branch.getD "detached", files := files }

/-- `cmd_commit(message, commit_all)`: refuse an empty staging area,
snapshot the staged files into a fresh commit directory, update the
references, clear the staging area; on any caught I/O failure remove
the commit directory and return 1.  `genId` is `generate_commit_id`,
`timestamp` the `format_timestamp()` result. -/
def cmd_commit (hashC : Bytes → String)
    (genId : String → String → Option String → String)
    (message : String) (commit_all : Bool) (timestamp : String)
    (oracle : Oracle) (fs : FS) : Nat × FS :=
  let idx := commitIndexOf hashC fs commit_all
  if idx.staged_files = [] then (1, fs)
  else
    let parent := get_head fs
    let branch := get_current_branch fs
    let cid := genId message timestamp parent
    match snapshotPhase oracle fs cid (idx.staged_files.map Prod.fst)
        (mkCommitMeta fs cid message timestamp parent branch) with
    | .error (fsE, _) => (1, cleanupCommit fsE cid)
    | .ok (fs₂, t, _) =>
      match refPhase oracle fs₂ cid branch t with
      | .error (fsE, _) => (1, cleanupCommit fsE cid)
      | .ok (fs₃, t₂) =>
        if oracle t₂ then (1, cleanupCommit fs₃ cid)
        else (0, { fs₃ with index := { idx with staged_files := [] } })

/-! ## Checkout (`commands/checkout.py`) -/

/-- The restore loop of `restore_files_from_commit`: for each path in
the commit's `files` list, skip it when its snapshot copy is missing,
and on a failed copy print a warning and continue (one tick per file
for the `makedirs`/`copy2` pair, either failure having the same net
effect: the file is not restored). -/
def restoreLoop (oracle : Oracle) (dirFiles : List (String × Bytes)) :
    List String → List (String × Bytes) → Nat → List (String × Bytes)
  | [], working, _ => working
  | f :: rest, working, tick =>
    match alookup f dirFiles with
    | none => restoreLoop oracle dirFiles rest working tick
    | some b =>
      if oracle tick then restoreLoop oracle dirFiles rest working (tick + 1)
      else restoreLoop oracle dirFiles rest (aset f b working) (tick + 1)

/-- `restore_files_from_commit(commit_id)`: `False` when the commit
directory is missing; otherwise copy each listed snapshot back into the
working tree (`meta.json` read with default `{}`, so a missing meta
restores nothing) and return `True`. -/
def restore_files_from_commit (oracle : Oracle) (fs : FS)
    (commit_id : String) : Bool × FS :=
  match alookup commit_id fs.commits with
  | none => (false, fs)
  | some dir =>
    let files := dir.meta.elim [] (fun m => m.files)
    (true, { fs with working := restoreLoop oracle dir.files files fs.working 0 })

/-- `has_uncommitted_changes()`: some tracked file is missing from disk
or differs bytewise from HEAD's snapshot of it (missing snapshot copies
and unreadable files are skipped). -/
def has_uncommitted_changes (fs : FS) : Bool :=
  match get_head fs with
  | none => false
  | some hc =>
    fs.index.tracked_files.any (fun f =>
      match alookup f fs.working with
      | none => true
      | some wb =>
        match alookup hc fs.commits with
        | none => false
        | some dir =>
          match alookup f dir.files with
          | none => false
          | some cb => decide (wb ≠ cb))

/-- The `files` list of a commit's `meta.json`, default `[]`
(`read_json(..., {})` followed by `meta.get("files", [])`). -/
def metaFilesOf (fs : FS) (cid : String) : List String :=
  ((alookup cid fs.commits).bind (fun d => d.meta)).elim []
    (fun m => m.files)

/-- The tail of `cmd_checkout` after the create-branch step: switch to
the branch named `target` (resolving its ref, refusing an empty one) or
to the commit named `target` (detached), in both cases restoring the
commit's files, moving HEAD, and rewriting the index with the commit's
file list and an *empty* staging area. -/
def checkout_switch (oracle : Oracle) (fs₁ : FS) (target : String) :
    Nat × FS :=
  match alookup target fs₁.branches with
  | some cid =>
    if cid = "" then (1, fs₁)
    else
      match restore_files_from_commit oracle fs₁ cid with
      | (false, fs₂) => (1, fs₂)
      | (true, fs₂) =>
        let fs₃ := set_head fs₂ cid (some target)
        (0, { fs₃ with index :=
          { tracked_files := metaFilesOf fs₃ cid, staged_files := [] } })
  | none =>
    match alookup target fs₁.commits with
    | some _ =>
      match restore_files_from_commit oracle fs₁ target with
      | (false, fs₂) => (1, fs₂)
      | (true, fs₂) =>
        let fs₃ := set_head fs₂ target none
        (0, { fs₃ with index :=
          { tracked_files := metaFilesOf fs₃ target, staged_files := [] } })
    | none => (1, fs₁)

/-- `cmd_checkout(target, create_branch, force)`: refuse on uncommitted
changes unless forced; optionally create a branch at HEAD; then switch
via `checkout_switch`. -/
def cmd_checkout (oracle : Oracle) (fs : FS) (target : String)
    (create_branch force : Bool) : Nat × FS :=
  if !force && has_uncommitted_changes fs then (1, fs)
  else
    match (if create_branch then
        match get_head fs with
        | none => Except.error (1, fs)
        | some hc =>
          if branch_exists fs target then Except.error (1, fs)
          else Except.ok { fs with branches := aset target hc fs.branches }
      else Except.ok fs) with
    | .error r => r
    | .ok fs₁ => checkout_switch oracle fs₁ target

/-! ## Staging (`cmd_add` in `commands/add.py`) -/

/-- A working-tree read: the path exists and is readable (`.ok bytes`)
or exists but raises `IOError` on read (`.error ()`); a path absent
from the map does not exist. -/
abbrev FileRead := Except Unit Bytes

/-- The per-file loop of `cmd_add`: normalize, skip ignored paths and
directories, count missing paths as errors, else insert into
`tracked_files` *first* and only then compute the `status` field
against the already-updated list.  The `try/except IOError` around the
staging body never fires because `get_file_hash` swallows its own
`IOError`.  Accumulates (index, added, ignored, errors). -/
def add_loop (hashC : Bytes → String) (ignored : String → Bool)
    (working : List (String × FileRead)) (dirs : List String) :
    List String → Index → Nat → Nat → Nat → Index × Nat × Nat × Nat
  | [], idx, added, ign, err => (idx, added, ign, err)
  | f₀ :: rest, idx, added, ign, err =>
    let f := normpath f₀
    if ignored f then
      add_loop hashC ignored working dirs rest idx added (ign + 1) err
    else if (alookup f working).isNone && !dirs.contains f then
      add_loop hashC ignored working dirs rest idx added ign (err + 1)
    else if dirs.contains f then
      add_loop hashC ignored working dirs rest idx added ign err
    else
      let tracked₁ :=
        if idx.tracked_files.contains f then idx.tracked_files
        else idx.tracked_files ++ [f]
      let entry : StagedEntry :=
        { hash := get_file_hash hashC (alookup f working),
          status := if !tracked₁.contains f then "added" else "modified" }
      add_loop hashC ignored working dirs rest
        { tracked_files := tracked₁, staged_files := aset f entry idx.staged_files }
        (added + 1) ign err

/-- `cmd_add` over an already-expanded file list (`expand_file_patterns`
is directory-walk/glob plumbing); exit code 1 iff some file was counted
as an error.  The final `write_json(INDEX_FILE, index)` is modelled
failure-free. -/
def cmd_add (hashC : Bytes → String) (ignored : String → Bool)
    (working : List (String × FileRead)) (dirs : List String)
    (files_to_add : List String) (idx : Index) : Nat × Index :=
  let r := add_loop hashC ignored working dirs files_to_add idx 0 0 0
  (if r.2.2.2 > 0 then 1 else 0, r.1)

/-! ## Status (`commands/status.py`) -/

/-- `get_file_status(file_path, staged_files, head_commit_path)`:
deleted/staged_deleted when the path is gone; else compare the live
hash against the staged hash, falling back to HEAD's snapshot.  The
HEAD commit directory's files are read with `get_file_hash` too, so
they share the unreadable-file fallback. -/
def get_file_status (hashC : Bytes → String)
    (working : List (String × FileRead))
    (staged_files : List (String × StagedEntry))
    (head_dir : Option (List (String × FileRead)))
    (file_path : String) : String :=
  match alookup file_path working with
  | none =>
    if (alookup file_path staged_files).isSome then "staged_deleted"
    else "deleted"
  | some _ =>
    let current_hash := get_file_hash hashC (alookup file_path working)
    match alookup file_path staged_files with
    | some e =>
      if current_hash ≠ e.hash then "modified_after_staging" else "staged"
    | none =>
      match head_dir with
      | some dir =>
        match alookup file_path dir with
        | some _ =>
          if current_hash ≠ get_file_hash hashC (alookup file_path dir) then
            "modified"
          else "unchanged"
        | none => "untracked"
      | none => "untracked"

/-- The categorization loop of `cmd_status` over the tracked-file set
(the Python `set` iteration order is the input list order): returns
(staged_changes, unstaged_changes, deleted_files), each in iteration
order. -/
def classify_tracked (hashC : Bytes → String)
    (working : List (String × FileRead))
    (staged_files : List (String × StagedEntry))
    (head_dir : Option (List (String × FileRead))) :
    List String → List String × List String × List String
  | [] => ([], [], [])
  | f :: rest =>
    let r := classify_tracked hashC working staged_files head_dir rest
    let s := get_file_status hashC working staged_files head_dir f
    if s = "staged" then (f :: r.1, r.2.1, r.2.2)
    else if s = "modified" then (r.1, f :: r.2.1, r.2.2)
    else if s = "deleted" then (r.1, r.2.1, f :: r.2.2)
    else if s = "modified_after_staging" then (f :: r.1, f :: r.2.1, r.2.2)
    else r

/-- The untracked scan of `cmd_status`: the `os.walk` visit order is
the input list order; keep paths that are neither ignored nor
tracked. -/
def untracked_scan (ignored : String → Bool) (tracked_files : List String)
    (walk_files : List String) : List String :=
  walk_files.filter (fun f => !ignored f && !tracked_files.contains f)

/-! ## Diff emission order (`commands/diff.py`) -/

/-- `diff_commits`: `for file in sorted(c1_files | c2_files)` — the
union of two `set`s, sorted; `dedup` supplies the set's distinct
elements and `insertionSort` Python's `sorted`. -/
def diff_commits_file_order (c1_files c2_files : List String) :
    List String :=
  List.insertionSort strLeRel ((c1_files ++ c2_files).dedup)

/-- `diff_commit_working`: `for file in sorted(tracked_files)`. -/
def diff_commit_working_file_order (tracked_files : List String) :
    List String :=
  List.insertionSort strLeRel tracked_files

/-- `diff_cached` and `show_staged_files`: `for file in
sorted(staged.keys())`. -/
def diff_cached_file_order (staged : List (String × StagedEntry)) :
    List String :=
  List.insertionSort strLeRel (staged.map Prod.fst)

/-! ## Fixtures for concrete counterexamples and witnesses -/

/-- A commit whose parent is `"b"`. -/
def cycleMetaA : CommitMeta :=
  { id := "a", message := "m1", timestamp := "t1", author_name := "u",
    author_email := "e", parent := some "b", branch := "main", files := [] }

/-- A commit whose parent is `"a"`, closing a two-cycle. -/
def cycleMetaB : CommitMeta :=
  { id := "b", message := "m2", timestamp := "t2", author_name := "u",
    author_email := "e", parent := some "a", branch := "main", files := [] }

/-- A corrupted store whose parent graph is the cycle a → b → a. -/
def cycleStore : List (String × CommitMeta) :=
  [("a", cycleMetaA), ("b", cycleMetaB)]

/-- A small repository with one commit `"c1"` and one branch `"dev"`. -/
def branchFS : FS :=
  { commits := [], head := .direct "c1", branches := [("dev", "c1")],
    index := { tracked_files := [], staged_files := [] }, working := [],
    config_user_name := "u", config_user_email := "e" }

/-- A degenerate content hash for concrete status runs. -/
def constHash : Bytes → String := fun _ => "h"

/-- Whether `cmd_status`'s loop sends a path to `staged_changes`. -/
def staged_select (hashC : Bytes → String)
    (working : List (String × FileRead))
    (staged_files : List (String × StagedEntry))
    (head_dir : Option (List (String × FileRead))) (f : String) : Bool :=
  get_file_status hashC working staged_files head_dir f == "staged"
    || get_file_status hashC working staged_files head_dir f == "modified_after_staging"

/-! ## Last-match-wins characterization of `is_ignored` -/

theorem foldl_last_match (m f : IgnorePattern → Bool)
    (pats : List IgnorePattern) :
    ∀ b : Bool,
      pats.foldl (fun ignored pat => if m pat then f pat else ignored) b
        = ((pats.filter m).getLast?).elim b f := by
  induction pats with
  | nil => intro b; rfl
  | cons p rest ih =>
    intro b
    by_cases hm : m p = true
    · simp only [List.foldl_cons, List.filter_cons, hm, if_pos, ih]
      cases hrest : rest.filter m with
      | nil => simp
      | cons q t =>
        cases hx : (q :: t).getLast? with
        | none =>
          have hne : (q :: t) ≠ [] := by simp
          have := List.getLast?_isSome.mpr hne
          rw [hx] at this
          simp at this
        | some x => simp [List.getLast?_cons_cons, hx]
    · simp only [Bool.not_eq_true] at hm
      simp [List.foldl_cons, List.filter_cons, hm, ih]

/-- `is_ignored` computes exactly the last-match-wins outcome. -/
theorem is_ignored_eq_lastMatchWins (patterns : List IgnorePattern)
    (path : String) (is_dir : Bool) :
    is_ignored patterns path is_dir = lastMatchWinsSpec patterns path is_dir := by
  simp only [is_ignored, lastMatchWinsSpec]
  exact foldl_last_match _ _ patterns false

/-- C3, counterexample.  The claim asserts that with user rules
`["build/", "!build/keep.txt"]` the *file* `build/other.txt` is
ignored; in fact `is_ignored` returns `false` on it, because the
directory-only pattern `build/` (trailing slash) matches only
directories and no other rule matches the file at all. -/
theorem ignore_precedence_counterexample :
    is_ignored (load_patterns ["build/", "!build/keep.txt"])
      "build/other.txt" false = false := by decide

/-- C3 (amended): ignore evaluation is last-match-wins over the ordered
rule list with default `false`; `["*.log", "!important.log"]` behaves
as claimed, and with `["build/", "!build/keep.txt"]` the directory
`build` itself is ignored while *neither* file under it is ignored when
queried directly (the directory-only rule never matches a file). -/
theorem ignore_last_match_wins :
    (∀ patterns path is_dir,
      is_ignored patterns path is_dir = lastMatchWinsSpec patterns path is_dir)
    ∧ is_ignored (load_patterns ["*.log", "!important.log"])
        "important.log" false = false
    ∧ is_ignored (load_patterns ["*.log", "!important.log"])
        "debug.log" false = true
    ∧ is_ignored (load_patterns ["build/", "!build/keep.txt"])
        "build/keep.txt" false = false
    ∧ is_ignored (load_patterns ["build/", "!build/keep.txt"])
        "build/other.txt" false = false
    ∧ is_ignored (load_patterns ["build/", "!build/keep.txt"])
        "build" true = true := by
  refine ⟨is_ignored_eq_lastMatchWins, ?_, ?_, ?_, ?_, ?_⟩ <;> decide

/-- C5 (confirmed): the commit-chain walk always returns a finite
sequence — its length is bounded by the number of distinct commit ids
in the store, adding fuel beyond the built-in bound never changes the
result (the loop has reached its fixpoint), and on a two-cycle
a → b → a the walk returns exactly [a, b], treating the first repeated
id as the end of the chain. -/
theorem commit_chain_terminates :
    (∀ store commit_id,
      (get_commit_tree store commit_id).length ≤
        (store.map Prod.fst).dedup.length)
    ∧ (∀ store commit_id extra,
      walkFuel store (store.length + 1 + extra) commit_id [] =
        get_commit_tree store commit_id)
    ∧ get_commit_tree cycleStore (some "a") = [cycleMetaA, cycleMetaB] := by
  refine ⟨?_, ?_, by decide⟩
  · intro store commit_id
    have h := walkFuel_length_le store (store.length + 1) commit_id []
    have h₂ : (((store.map Prod.fst).dedup).filter
        (fun x => decide (x ∉ ([] : List String)))).length =
        (store.map Prod.fst).dedup.length := by simp
    calc (get_commit_tree store commit_id).length
        ≤ _ := h
      _ = (store.map Prod.fst).dedup.length := h₂
  · intro store commit_id extra
    have h₁ : (((store.map Prod.fst).dedup).filter
        (fun x => decide (x ∉ ([] : List String)))).length ≤
        (store.map Prod.fst).dedup.length := List.length_filter_le _ _
    have h₂ : (store.map Prod.fst).dedup.length ≤
        (store.map Prod.fst).length :=
      (List.dedup_sublist _).length_le
    have h₃ : (store.map Prod.fst).length = store.length :=
      List.length_map _ _
    exact walkFuel_stable store (store.length + 1 + extra)
      (store.length + 1) commit_id [] (by omega) (by omega)

/-- C6, counterexample.  The claim asserts that a branch name
containing any whitespace makes `cmd_branch` fail with the invalid-name
error and create nothing; but the source only tests `' ' in name`, so
the tab-containing name `"a\tb"` passes validation and the branch is
created at HEAD. -/
theorem cmd_branch_tab_counterexample :
    (cmd_branch branchFS "a\tb").1 = BranchResult.created "c1"
    ∧ (cmd_branch branchFS "a\tb").2.branches =
        [("dev", "c1"), ("a\tb", "c1")] := by
  constructor <;> decide

/-- C6 (amended): `cmd_branch` rejects, leaving the state unchanged,
every name that is empty or contains `/` or the space character `' '`
(not arbitrary whitespace) with the invalid-name error, and every name
passing that validation that already exists with the already-exists
error. -/
theorem cmd_branch_validation (fs : FS) (name : String) :
    ((name = "" ∨ name.toList.contains '/' = true ∨
        name.toList.contains ' ' = true) →
      cmd_branch fs name = (.invalidName, fs))
    ∧ (¬ (name = "" ∨ name.toList.contains '/' = true ∨
        name.toList.contains ' ' = true) →
      branch_exists fs name = true →
      cmd_branch fs name = (.alreadyExists, fs)) := by
  constructor
  · intro h
    unfold cmd_branch
    rw [if_pos h]
  · intro h hex
    unfold cmd_branch
    rw [if_neg h, if_pos hex]

/-- C6, witness: a space-containing name is rejected as invalid and an
existing name as already existing, both leaving the state unchanged. -/
theorem cmd_branch_validation_witness :
    cmd_branch branchFS "a b" = (.invalidName, branchFS)
    ∧ cmd_branch branchFS "dev" = (.alreadyExists, branchFS) :=
  ⟨(cmd_branch_validation branchFS "a b").1 (Or.inr (Or.inr (by decide))),
   (cmd_branch_validation branchFS "dev").2 (by decide) (by decide)⟩

/-! ## C7: emission order -/

/-- C7, counterexample.  The claim asserts every path-set iteration of
the status computation is sorted before emission; but `cmd_status`
iterates `set(tracked_files)` in the set's (unspecified) iteration
order and appends without sorting, so the iteration order
`["b.txt", "a.txt"]` is emitted as-is, unsorted. -/
theorem status_order_counterexample :
    (classify_tracked constHash
        [("b.txt", Except.ok []), ("a.txt", Except.ok [])]
        [("b.txt", ⟨"h", "modified"⟩), ("a.txt", ⟨"h", "modified"⟩)]
        none ["b.txt", "a.txt"]).1 = ["b.txt", "a.txt"]
    ∧ ¬ List.Sorted strLeRel ["b.txt", "a.txt"] := by
  constructor <;> decide

theorem classify_fst_eq_filter (hashC : Bytes → String)
    (working : List (String × FileRead))
    (staged_files : List (String × StagedEntry))
    (head_dir : Option (List (String × FileRead))) :
    ∀ tracked : List String,
      (classify_tracked hashC working staged_files head_dir tracked).1
        = tracked.filter (staged_select hashC working staged_files head_dir) := by
  intro tracked
  induction tracked with
  | nil => rfl
  | cons f rest ih =>
    simp only [classify_tracked, List.filter_cons]
    by_cases h₁ : get_file_status hashC working staged_files head_dir f = "staged"
    · have hsel : staged_select hashC working staged_files head_dir f = true := by
        unfold staged_select
        rw [h₁]
        decide
      simp [h₁, hsel, ih]
    · by_cases h₂ : get_file_status hashC working staged_files head_dir f = "modified"
      · have hsel : staged_select hashC working staged_files head_dir f = false := by
          unfold staged_select
          rw [h₂]
          decide
        simp [h₁, h₂, hsel, ih]
      · by_cases h₃ : get_file_status hashC working staged_files head_dir f = "deleted"
        · have hsel : staged_select hashC working staged_files head_dir f = false := by
            unfold staged_select
            rw [h₃]
            decide
          simp [h₁, h₂, h₃, hsel, ih]
        · by_cases h₄ : get_file_status hashC working staged_files head_dir f
              = "modified_after_staging"
          · have hsel : staged_select hashC working staged_files head_dir f = true := by
              unfold staged_select
              rw [h₄]
              decide
            simp [h₁, h₂, h₃, h₄, hsel, ih]
          · have hsel : staged_select hashC working staged_files head_dir f = false := by
              unfold staged_select
              simp [h₁, h₄]
            simp [h₁, h₂, h₃, h₄, hsel, ih]

/-- C7 (amended): every diff emission order (`diff_commits`,
`diff_commit_working`, `diff_cached`) is sorted lexicographically, but
`cmd_status` emits its categorized lists in tracked-set iteration order
— an order-preserving filter of its input, with no sort. -/
theorem diff_sorted_status_order_preserving :
    (∀ c1_files c2_files,
      List.Sorted strLeRel (diff_commits_file_order c1_files c2_files))
    ∧ (∀ tracked_files,
      List.Sorted strLeRel (diff_commit_working_file_order tracked_files))
    ∧ (∀ staged,
      List.Sorted strLeRel (diff_cached_file_order staged))
    ∧ (∀ hashC working staged_files head_dir tracked,
      (classify_tracked hashC working staged_files head_dir tracked).1
        = tracked.filter (staged_select hashC working staged_files head_dir)) := by
  refine ⟨?_, ?_, ?_, classify_fst_eq_filter⟩
  · intro c1 c2
    exact List.sorted_insertionSort strLeRel _
  · intro tracked
    exact List.sorted_insertionSort strLeRel _
  · intro staged
    exact List.sorted_insertionSort strLeRel _

/-! ## C8/C10: staging status and the unreadable-file hash -/

theorem contains_append_singleton (l : List String) (x : String) :
    (l ++ [x]).contains x = true := by
  simp

theorem add_entry_status (tracked : List String) (f : String) :
    (if !(if tracked.contains f then tracked
          else tracked ++ [f]).contains f
      then "added" else "modified") = "modified" := by
  by_cases h : f ∈ tracked
  · simp [h]
  · simp [h]

theorem add_loop_status (hashC : Bytes → String) (ignored : String → Bool)
    (working : List (String × FileRead)) (dirs : List String) :
    ∀ (files : List String) (idx : Index) (added ign err : Nat)
        (f : String) (e : StagedEntry),
      alookup f (add_loop hashC ignored working dirs files idx
          added ign err).1.staged_files = some e →
      e.status = "modified" ∨ alookup f idx.staged_files = some e := by
  intro files
  induction files with
  | nil =>
    intro idx added ign err f e h
    exact Or.inr h
  | cons f₀ rest ih =>
    intro idx added ign err f e h
    simp only [add_loop] at h
    by_cases hig : ignored (normpath f₀) = true
    · rw [if_pos hig] at h
      exact ih _ _ _ _ _ _ h
    · rw [if_neg hig] at h
      by_cases hex : ((alookup (normpath f₀) working).isNone
          && !dirs.contains (normpath f₀)) = true
      · rw [if_pos hex] at h
        exact ih _ _ _ _ _ _ h
      · rw [if_neg hex] at h
        by_cases hdir : dirs.contains (normpath f₀) = true
        · rw [if_pos hdir] at h
          exact ih _ _ _ _ _ _ h
        · rw [if_neg hdir] at h
          rcases ih _ _ _ _ _ _ h with hmod | hrest
          · exact Or.inl hmod
          · by_cases hf : f = normpath f₀
            · subst hf
              rw [alookup_aset_self] at hrest
              injection hrest with he
              left
              rw [← he]
              exact add_entry_status _ _
            · right
              rwa [alookup_aset_ne _ _ _ _ hf] at hrest

/-- C8 (confirmed): every `staged_files` entry present after `cmd_add`
either was already in the index before the call or carries status
`"modified"` — never `"added"`, because the file is inserted into
`tracked_files` before the membership test that would produce
`"added"`, making that test always false. -/
theorem cmd_add_status_never_added (hashC : Bytes → String)
    (ignored : String → Bool) (working : List (String × FileRead))
    (dirs files_to_add : List String) (idx : Index) (f : String)
    (e : StagedEntry)
    (h : alookup f (cmd_add hashC ignored working dirs files_to_add
        idx).2.staged_files = some e) :
    e.status = "modified" ∨ alookup f idx.staged_files = some e :=
  add_loop_status hashC ignored working dirs files_to_add idx 0 0 0 f e h

/-- C8, witness: staging the fresh file `x.txt` records status
`"modified"`. -/
theorem cmd_add_status_never_added_witness :
    (⟨"h", "modified"⟩ : StagedEntry).status = "modified"
    ∨ alookup "x.txt" (Index.mk [] []).staged_files =
        some ⟨"h", "modified"⟩ :=
  cmd_add_status_never_added constHash (fun _ => false)
    [("x.txt", Except.ok [1])] [] ["x.txt"] (Index.mk [] [])
    "x.txt" ⟨"h", "modified"⟩ (by decide)

/-- C10 (confirmed): `get_file_hash` is total and maps every failed
read (missing or unreadable path) to `""`; `cmd_add` therefore stages
an existing-but-unreadable file with hash `""` and status
`"modified"`; any two unreadable reads get equal hashes; and in status
classification an unreadable staged file whose recorded hash is `""`
compares hash-equal, classifying as plain `"staged"`. -/
theorem get_file_hash_unreadable_empty :
    (∀ (hashC : Bytes → String) (r : Option FileRead),
      (∀ b, r ≠ some (Except.ok b)) → get_file_hash hashC r = "")
    ∧ (∀ (hashC : Bytes → String) (ignored : String → Bool)
        (working : List (String × FileRead)) (dirs : List String)
        (idx : Index) (f : String),
      alookup (normpath f) working = some (Except.error ()) →
      ignored (normpath f) = false →
      dirs.contains (normpath f) = false →
      ∃ e, alookup (normpath f) (cmd_add hashC ignored working dirs [f]
          idx).2.staged_files = some e ∧ e.hash = "" ∧ e.status = "modified")
    ∧ (∀ (hashC : Bytes → String) (r₁ r₂ : Option FileRead),
      (∀ b, r₁ ≠ some (Except.ok b)) → (∀ b, r₂ ≠ some (Except.ok b)) →
      get_file_hash hashC r₁ = get_file_hash hashC r₂)
    ∧ (∀ (hashC : Bytes → String) (working : List (String × FileRead))
        (staged_files : List (String × StagedEntry))
        (head_dir : Option (List (String × FileRead))) (f : String)
        (e : StagedEntry),
      alookup f working = some (Except.error ()) →
      alookup f staged_files = some e → e.hash = "" →
      get_file_status hashC working staged_files head_dir f = "staged") := by
  have hempty : ∀ (hashC : Bytes → String) (r : Option FileRead),
      (∀ b, r ≠ some (Except.ok b)) → get_file_hash hashC r = "" := by
    intro hashC r h
    match r with
    | none => rfl
    | some (.error u) => rfl
    | some (.ok b) => exact absurd rfl (h b)
  refine ⟨hempty, ?_, ?_, ?_⟩
  · intro hashC ignored working dirs idx f hw hig hdirs
    have hkey : (cmd_add hashC ignored working dirs [f] idx).2.staged_files
        = aset (normpath f)
            { hash := get_file_hash hashC (alookup (normpath f) working),
              status := if !(if idx.tracked_files.contains (normpath f)
                  then idx.tracked_files
                  else idx.tracked_files ++ [normpath f]).contains (normpath f)
                then "added" else "modified" }
            idx.staged_files := by
      simp only [cmd_add, add_loop]
      rw [if_neg (by simp [hig]), if_neg (by simp [hw]),
        if_neg (by rw [hdirs]; simp)]
    refine ⟨_, by rw [hkey]; exact alookup_aset_self _ _ _, ?_, ?_⟩
    · show get_file_hash hashC (alookup (normpath f) working) = ""
      rw [hw]
      rfl
    · exact add_entry_status _ _
  · intro hashC r₁ r₂ h₁ h₂
    rw [hempty hashC r₁ h₁, hempty hashC r₂ h₂]
  · intro hashC working staged_files head_dir f e hw hstaged he
    simp [get_file_status, hw, hstaged, get_file_hash, he]

/-- C10, witness: concrete unreadable reads hash to `""`, an
existing-but-unreadable `u.txt` is staged with hash `""`, two distinct
unreadable reads are hash-equal, and the staged unreadable file
classifies as `"staged"`. -/
theorem get_file_hash_unreadable_empty_witness :
    get_file_hash constHash none = ""
    ∧ (∃ e, alookup (normpath "u.txt")
        (cmd_add constHash (fun _ => false) [("u.txt", Except.error ())]
          [] ["u.txt"] (Index.mk [] [])).2.staged_files = some e
        ∧ e.hash = "" ∧ e.status = "modified")
    ∧ get_file_hash constHash none
        = get_file_hash constHash (some (Except.error ()))
    ∧ get_file_status constHash [("u.txt", Except.error ())]
        [("u.txt", ⟨"", "modified"⟩)] none "u.txt" = "staged" :=
  ⟨get_file_hash_unreadable_empty.1 constHash none
      (fun b h => Option.noConfusion h),
   get_file_hash_unreadable_empty.2.1 constHash (fun _ => false)
      [("u.txt", Except.error ())] [] (Index.mk [] []) "u.txt"
      (by rfl) (by rfl) (by rfl),
   get_file_hash_unreadable_empty.2.2.1 constHash none
      (some (Except.error ())) (fun b h => Option.noConfusion h)
      (fun b h => by injection h with h₂; exact Except.noConfusion h₂),
   get_file_hash_unreadable_empty.2.2.2 constHash
      [("u.txt", Except.error ())] [("u.txt", ⟨"", "modified"⟩)] none
      "u.txt" ⟨"", "modified"⟩ (by rfl) (by rfl) rfl⟩

/-! ## C4: staged-then-modified classification -/

/-- Whether `cmd_status`'s loop sends a path to `unstaged_changes`. -/
def unstaged_select (hashC : Bytes → String)
    (working : List (String × FileRead))
    (staged_files : List (String × StagedEntry))
    (head_dir : Option (List (String × FileRead))) (f : String) : Bool :=
  get_file_status hashC working staged_files head_dir f == "modified"
    || get_file_status hashC working staged_files head_dir f == "modified_after_staging"

theorem classify_snd_eq_filter (hashC : Bytes → String)
    (working : List (String × FileRead))
    (staged_files : List (String × StagedEntry))
    (head_dir : Option (List (String × FileRead))) :
    ∀ tracked : List String,
      (classify_tracked hashC working staged_files head_dir tracked).2.1
        = tracked.filter (unstaged_select hashC working staged_files head_dir) := by
  intro tracked
  induction tracked with
  | nil => rfl
  | cons f rest ih =>
    simp only [classify_tracked, List.filter_cons]
    by_cases h₁ : get_file_status hashC working staged_files head_dir f = "staged"
    · have hsel : unstaged_select hashC working staged_files head_dir f = false := by
        unfold unstaged_select
        rw [h₁]
        decide
      simp [h₁, hsel, ih]
    · by_cases h₂ : get_file_status hashC working staged_files head_dir f = "modified"
      · have hsel : unstaged_select hashC working staged_files head_dir f = true := by
          unfold unstaged_select
          rw [h₂]
          decide
        simp [h₁, h₂, hsel, ih]
      · by_cases h₃ : get_file_status hashC working staged_files head_dir f = "deleted"
        · have hsel : unstaged_select hashC working staged_files head_dir f = false := by
            unfold unstaged_select
            rw [h₃]
            decide
          simp [h₁, h₂, h₃, hsel, ih]
        · by_cases h₄ : get_file_status hashC working staged_files head_dir f
              = "modified_after_staging"
          · have hsel : unstaged_select hashC working staged_files head_dir f = true := by
              unfold unstaged_select
              rw [h₄]
              decide
            simp [h₁, h₂, h₃, h₄, hsel, ih]
          · have hsel : unstaged_select hashC working staged_files head_dir f = false := by
              unfold unstaged_select
              simp [h₂, h₄]
            simp [h₁, h₂, h₃, h₄, hsel, ih]

/-- C4 (confirmed): a tracked path present in `staged_files` and on
disk appears in both the staged and unstaged-modified lists when its
live hash differs from the staged hash, and in the staged list only
when the hashes match. -/
theorem status_staged_then_modified (hashC : Bytes → String)
    (working : List (String × FileRead))
    (staged_files : List (String × StagedEntry))
    (head_dir : Option (List (String × FileRead)))
    (tracked : List String) (f : String) (e : StagedEntry)
    (hf : f ∈ tracked)
    (hw : (alookup f working).isSome = true)
    (hs : alookup f staged_files = some e) :
    (get_file_hash hashC (alookup f working) ≠ e.hash →
      f ∈ (classify_tracked hashC working staged_files head_dir tracked).1
      ∧ f ∈ (classify_tracked hashC working staged_files head_dir tracked).2.1)
    ∧ (get_file_hash hashC (alookup f working) = e.hash →
      f ∈ (classify_tracked hashC working staged_files head_dir tracked).1
      ∧ f ∉ (classify_tracked hashC working staged_files head_dir tracked).2.1) := by
  obtain ⟨w, hww⟩ := Option.isSome_iff_exists.mp hw
  constructor
  · intro hne
    rw [hww] at hne
    have hstat : get_file_status hashC working staged_files head_dir f
        = "modified_after_staging" := by
      simp only [get_file_status, hww, hs]
      rw [if_pos hne]
    have hsel₁ : staged_select hashC working staged_files head_dir f = true := by
      unfold staged_select
      rw [hstat]
      decide
    have hsel₂ : unstaged_select hashC working staged_files head_dir f = true := by
      unfold unstaged_select
      rw [hstat]
      decide
    refine ⟨?_, ?_⟩
    · rw [classify_fst_eq_filter]
      exact List.mem_filter.mpr ⟨hf, hsel₁⟩
    · rw [classify_snd_eq_filter]
      exact List.mem_filter.mpr ⟨hf, hsel₂⟩
  · intro heq
    rw [hww] at heq
    have hstat : get_file_status hashC working staged_files head_dir f
        = "staged" := by
      simp only [get_file_status, hww, hs]
      rw [if_neg (by simp [heq])]
    have hsel₁ : staged_select hashC working staged_files head_dir f = true := by
      unfold staged_select
      rw [hstat]
      decide
    have hsel₂ : unstaged_select hashC working staged_files head_dir f = false := by
      unfold unstaged_select
      rw [hstat]
      decide
    refine ⟨?_, ?_⟩
    · rw [classify_fst_eq_filter]
      exact List.mem_filter.mpr ⟨hf, hsel₁⟩
    · rw [classify_snd_eq_filter]
      intro hmem
      have hsel := (List.mem_filter.mp hmem).2
      rw [hsel₂] at hsel
      exact Bool.noConfusion hsel

/-- C4, witness: with the constant hash `"h"`, a file staged with hash
`"x"` (stale) lands in both lists, and one staged with hash `"h"`
(fresh) in the staged list only. -/
theorem status_staged_then_modified_witness :
    ("a.txt" ∈ (classify_tracked constHash [("a.txt", Except.ok [1])]
        [("a.txt", ⟨"x", "modified"⟩)] none ["a.txt"]).1
      ∧ "a.txt" ∈ (classify_tracked constHash [("a.txt", Except.ok [1])]
        [("a.txt", ⟨"x", "modified"⟩)] none ["a.txt"]).2.1)
    ∧ ("a.txt" ∈ (classify_tracked constHash [("a.txt", Except.ok [1])]
        [("a.txt", ⟨"h", "modified"⟩)] none ["a.txt"]).1
      ∧ "a.txt" ∉ (classify_tracked constHash [("a.txt", Except.ok [1])]
        [("a.txt", ⟨"h", "modified"⟩)] none ["a.txt"]).2.1) :=
  ⟨(status_staged_then_modified constHash [("a.txt", Except.ok [1])]
      [("a.txt", ⟨"x", "modified"⟩)] none ["a.txt"] "a.txt"
      ⟨"x", "modified"⟩ (by decide) (by rfl) (by rfl)).1 (by decide),
   (status_staged_then_modified constHash [("a.txt", Except.ok [1])]
      [("a.txt", ⟨"h", "modified"⟩)] none ["a.txt"] "a.txt"
      ⟨"h", "modified"⟩ (by decide) (by rfl) (by rfl)).2 (by rfl)⟩

/-! ## C9: checkout clears the staging area -/

theorem restore_commits_eq (oracle : Oracle) (fs : FS) (cid : String)
    (b : Bool) (fs₂ : FS)
    (h : restore_files_from_commit oracle fs cid = (b, fs₂)) :
    fs₂.commits = fs.commits := by
  unfold restore_files_from_commit at h
  cases hc : alookup cid fs.commits with
  | none =>
    rw [hc] at h
    injection h with h₁ h₂
    rw [← h₂]
  | some dir =>
    rw [hc] at h
    injection h with h₁ h₂
    rw [← h₂]

theorem restore_true_isSome (oracle : Oracle) (fs : FS) (cid : String)
    (fs₂ : FS)
    (h : restore_files_from_commit oracle fs cid = (true, fs₂)) :
    (alookup cid fs.commits).isSome = true := by
  unfold restore_files_from_commit at h
  cases hc : alookup cid fs.commits with
  | none =>
    rw [hc] at h
    simp at h
  | some dir => rfl

theorem set_head_commits (fs : FS) (cid : String) (br : Option String) :
    (set_head fs cid br).commits = fs.commits := by
  cases br <;> rfl

theorem metaFilesOf_congr (fs₁ fs₂ : FS) (h : fs₁.commits = fs₂.commits)
    (cid : String) : metaFilesOf fs₁ cid = metaFilesOf fs₂ cid := by
  unfold metaFilesOf
  rw [h]

theorem checkout_switch_spec (oracle : Oracle) (fs₁ : FS) (target : String)
    (fs' : FS) (h : checkout_switch oracle fs₁ target = (0, fs')) :
    fs'.index.staged_files = []
    ∧ ∃ cid, (alookup cid fs₁.commits).isSome = true
        ∧ fs'.index.tracked_files = metaFilesOf fs₁ cid := by
  unfold checkout_switch at h
  cases hb : alookup target fs₁.branches with
  | some cid =>
    simp only [hb] at h
    by_cases hcid : cid = ""
    · rw [if_pos hcid] at h
      simp at h
    · rw [if_neg hcid] at h
      cases hr : restore_files_from_commit oracle fs₁ cid with
      | mk b fs₂ =>
        cases b with
        | false =>
          simp only [hr] at h
          simp at h
        | true =>
          simp only [hr] at h
          injection h with h₁ h₂
          subst h₂
          refine ⟨rfl, cid, restore_true_isSome oracle fs₁ cid fs₂ hr, ?_⟩
          show metaFilesOf (set_head fs₂ cid (some target)) cid = metaFilesOf fs₁ cid
          exact metaFilesOf_congr _ _
            ((set_head_commits fs₂ cid (some target)).trans
              (restore_commits_eq oracle fs₁ cid true fs₂ hr)) cid
  | none =>
    simp only [hb] at h
    cases hcm : alookup target fs₁.commits with
    | none =>
      simp only [hcm] at h
      simp at h
    | some dir =>
      simp only [hcm] at h
      cases hr : restore_files_from_commit oracle fs₁ target with
      | mk b fs₂ =>
        cases b with
        | false =>
          simp only [hr] at h
          simp at h
        | true =>
          simp only [hr] at h
          injection h with h₁ h₂
          subst h₂
          refine ⟨rfl, target, by rw [hcm]; rfl, ?_⟩
          show metaFilesOf (set_head fs₂ target none) target = metaFilesOf fs₁ target
          exact metaFilesOf_congr _ _
            ((set_head_commits fs₂ target none).trans
              (restore_commits_eq oracle fs₁ target true fs₂ hr)) target

/-- C9 (confirmed): every successful `cmd_checkout` — with or without
`--force` — ends with an index whose `staged_files` is empty and whose
`tracked_files` is exactly the checked-out commit's `files` list; no
staged entry survives a checkout. -/
theorem cmd_checkout_clears_staged (oracle : Oracle) (fs : FS)
    (target : String) (create_branch force : Bool) (fs' : FS)
    (h : cmd_checkout oracle fs target create_branch force = (0, fs')) :
    fs'.index.staged_files = []
    ∧ ∃ cid, (alookup cid fs.commits).isSome = true
        ∧ fs'.index.tracked_files = metaFilesOf fs cid := by
  unfold cmd_checkout at h
  by_cases hu : (!force && has_uncommitted_changes fs) = true
  · rw [if_pos hu] at h
    simp at h
  · rw [if_neg hu] at h
    by_cases hcb : create_branch = true
    · rw [if_pos hcb] at h
      cases hh : get_head fs with
      | none =>
        simp only [hh] at h
        simp at h
      | some hc =>
        simp only [hh] at h
        by_cases hbe : branch_exists fs target = true
        · rw [if_pos hbe] at h
          simp at h
        · rw [if_neg hbe] at h
          exact checkout_switch_spec oracle
            { fs with branches := aset target hc fs.branches } target fs' h
    · rw [if_neg hcb] at h
      exact checkout_switch_spec oracle fs target fs' h

/-- The metadata of the witness repository's only commit. -/
def c1Meta : CommitMeta :=
  { id := "c1", message := "m", timestamp := "t", author_name := "u",
    author_email := "e", parent := none, branch := "dev",
    files := ["a.txt"] }

/-- The on-disk directory of the witness repository's only commit. -/
def c1Dir : CommitDir :=
  { files := [("a.txt", [1])], meta := some c1Meta }

/-- A repository with one commit, a branch `dev` on it, a clean working
tree, and a non-empty staging area, for the checkout witness. -/
def checkoutFS : FS :=
  { commits := [("c1", c1Dir)],
    head := .direct "c1", branches := [("dev", "c1")],
    index := { tracked_files := ["a.txt"],
               staged_files := [("a.txt", ⟨"h", "modified"⟩)] },
    working := [("a.txt", [1])],
    config_user_name := "u", config_user_email := "e" }

/-- C9, witness: checking out branch `dev` without `--force` empties
the previously non-empty staging area and adopts the commit's file
list. -/
theorem cmd_checkout_clears_staged_witness :
    (cmd_checkout noFail checkoutFS "dev" false false).2.index.staged_files = []
    ∧ ∃ cid, (alookup cid checkoutFS.commits).isSome = true
        ∧ (cmd_checkout noFail checkoutFS "dev" false false).2.index.tracked_files
            = metaFilesOf checkoutFS cid :=
  cmd_checkout_clears_staged noFail checkoutFS "dev" false false
    (cmd_checkout noFail checkoutFS "dev" false false).2 (by decide)

/-! ## C2: commit atomicity under snapshot failure -/

/-- The repository state carried by either side of a phase result. -/
def exceptState : Except (FS × Nat) (FS × Nat × List String) → FS
  | .error (f, _) => f
  | .ok (f, _, _) => f

theorem copyLoop_commits_only (oracle : Oracle) (cid : String) :
    ∀ (keys : List String) (fs : FS) (tick : Nat) (acc : List String),
      ∃ cs, exceptState (copyLoop oracle cid keys fs tick acc)
          = { fs with commits := cs }
        ∧ aremove cid cs = aremove cid fs.commits := by
  intro keys
  induction keys with
  | nil =>
    intro fs tick acc
    exact ⟨fs.commits, rfl, rfl⟩
  | cons f rest ih =>
    intro fs tick acc
    simp only [copyLoop]
    split
    · exact ih fs tick acc
    · rename_i b hw
      split
      · exact ⟨fs.commits, rfl, rfl⟩
      · split
        · exact ⟨fs.commits, rfl, rfl⟩
        · obtain ⟨cs, hst, hrm⟩ :=
            ih (putCommitFile fs cid f b) (tick + 2) (acc ++ [f])
          exact ⟨cs, hst.trans rfl, hrm.trans (aremove_amodify cid _ fs.commits)⟩

theorem makeCommitDir_set_commits (fs : FS) (cid : String)
    (cs : List (String × CommitDir)) :
    { makeCommitDir fs cid with commits := cs } = { fs with commits := cs } := by
  unfold makeCommitDir
  split <;> rfl

theorem aremove_makeCommitDir (fs : FS) (cid : String) :
    aremove cid (makeCommitDir fs cid).commits = aremove cid fs.commits := by
  unfold makeCommitDir
  split
  · rfl
  · exact aremove_append_self cid _ fs.commits

theorem snapshotPhase_commits_only (oracle : Oracle) (fs : FS) (cid : String)
    (stagedKeys : List String) (metaOf : List String → CommitMeta) :
    ∃ cs, exceptState (snapshotPhase oracle fs cid stagedKeys metaOf)
        = { fs with commits := cs }
      ∧ aremove cid cs = aremove cid fs.commits := by
  unfold snapshotPhase
  by_cases h₀ : oracle 0 = true
  · rw [if_pos h₀]
    exact ⟨fs.commits, rfl, rfl⟩
  · rw [if_neg h₀]
    obtain ⟨cs, hst, hrm⟩ :=
      copyLoop_commits_only oracle cid stagedKeys (makeCommitDir fs cid) 1 []
    have hrm₂ : aremove cid cs = aremove cid fs.commits :=
      hrm.trans (aremove_makeCommitDir fs cid)
    cases hcl : copyLoop oracle cid stagedKeys (makeCommitDir fs cid) 1 [] with
    | error e =>
      rw [hcl] at hst
      refine ⟨cs, ?_, hrm₂⟩
      simp only [hcl]
      exact hst.trans (makeCommitDir_set_commits fs cid cs)
    | ok trip =>
      obtain ⟨fs₂, t, files⟩ := trip
      rw [hcl] at hst
      have hst₂ : fs₂ = { fs with commits := cs } :=
        hst.trans (makeCommitDir_set_commits fs cid cs)
      simp only [hcl]
      by_cases h₁ : oracle t = true
      · rw [if_pos h₁]
        exact ⟨cs, hst₂, hrm₂⟩
      · rw [if_neg h₁]
        by_cases h₂ : oracle (t + 1) = true
        · rw [if_pos h₂]
          exact ⟨cs, hst₂, hrm₂⟩
        · rw [if_neg h₂]
          refine ⟨amodify cid (fun d => { d with meta := some (metaOf files) }) cs,
            ?_, (aremove_amodify cid _ cs).trans hrm₂⟩
          show putCommitMeta fs₂ cid (metaOf files) = _
          rw [hst₂]
          rfl

theorem cleanup_restores (fs : FS) (cid : String)
    (cs : List (String × CommitDir))
    (hrm : aremove cid cs = fs.commits) :
    cleanupCommit { fs with commits := cs } cid = fs := by
  unfold cleanupCommit
  by_cases hs : (alookup cid cs).isSome = true
  · rw [if_pos hs]
    show ({ fs with commits := aremove cid cs } : FS) = fs
    rw [hrm]
  · rw [if_neg hs]
    have hnone : alookup cid cs = none := by
      cases hcs : alookup cid cs with
      | none => rfl
      | some d => rw [hcs] at hs; simp at hs
    have : cs = fs.commits := (aremove_of_alookup_none cid cs hnone).symm.trans hrm
    rw [this]

/-- C2 (confirmed): whenever any I/O failure occurs during the
snapshot phase of `cmd_commit` (commit-directory creation, file
copies, config read, or `meta.json` write — everything before
`set_head`), the command returns 1 and the repository state is exactly
the initial one: the partial commit directory is removed and neither
HEAD, the branch refs, nor the on-disk index change. -/
theorem cmd_commit_atomic (hashC : Bytes → String)
    (genId : String → String → Option String → String)
    (message : String) (commit_all : Bool) (timestamp : String)
    (oracle : Oracle) (fs : FS)
    (hne : (commitIndexOf hashC fs commit_all).staged_files ≠ [])
    (hfresh : alookup (genId message timestamp (get_head fs)) fs.commits = none)
    (hfail : ∃ e, snapshotPhase oracle fs (genId message timestamp (get_head fs))
        ((commitIndexOf hashC fs commit_all).staged_files.map Prod.fst)
        (mkCommitMeta fs (genId message timestamp (get_head fs)) message
          timestamp (get_head fs) (get_current_branch fs))
        = Except.error e) :
    cmd_commit hashC genId message commit_all timestamp oracle fs = (1, fs) := by
  obtain ⟨⟨fsE, t⟩, he⟩ := hfail
  obtain ⟨cs, hst, hrm⟩ := snapshotPhase_commits_only oracle fs
    (genId message timestamp (get_head fs))
    ((commitIndexOf hashC fs commit_all).staged_files.map Prod.fst)
    (mkCommitMeta fs (genId message timestamp (get_head fs)) message
      timestamp (get_head fs) (get_current_branch fs))
  rw [he] at hst
  have hE : fsE = { fs with commits := cs } := hst
  simp only [cmd_commit]
  rw [if_neg hne]
  simp only [he]
  rw [hE]
  rw [cleanup_restores fs _ cs (hrm.trans (aremove_of_alookup_none _ _ hfresh))]

/-- The environment whose very first I/O call fails. -/
def failFirst : Oracle := fun t => t == 0

/-- A commit-id generator returning a fixed id, for witnesses. -/
def constGen : String → String → Option String → String := fun _ _ _ => "cid1"

/-- A repository with one staged file and no commits yet. -/
def commitFS : FS :=
  { commits := [], head := .hEmpty, branches := [],
    index := { tracked_files := ["a.txt"],
               staged_files := [("a.txt", ⟨"h", "modified"⟩)] },
    working := [("a.txt", [1, 2])],
    config_user_name := "u", config_user_email := "e" }

/-- C2, witness: when the commit-directory creation itself fails, the
command returns 1 with the repository state unchanged. -/
theorem cmd_commit_atomic_witness :
    cmd_commit constHash constGen "first" false "ts" failFirst commitFS
      = (1, commitFS) :=
  cmd_commit_atomic constHash constGen "first" false "ts" failFirst commitFS
    (by decide) (by rfl) ⟨(commitFS, 1), by rfl⟩

/-! ## C1: commit/checkout round trip -/

theorem alookup_append_self (k : String) (v : α) (l : List (String × α))
    (h : alookup k l = none) : alookup k (l ++ [(k, v)]) = some v := by
  induction l with
  | nil => simp [alookup]
  | cons p rest ih =>
    obtain ⟨k₁, v₁⟩ := p
    by_cases h₁ : k = k₁
    · simp [alookup, h₁] at h
    · simp only [alookup, h₁, if_false] at h
      simp [List.cons_append, alookup, h₁, ih h]

theorem alookup_amodify_self (k : String) (g : α → α) (l : List (String × α))
    (d : α) (h : alookup k l = some d) :
    alookup k (amodify k g l) = some (g d) := by
  induction l with
  | nil => simp [alookup] at h
  | cons p rest ih =>
    obtain ⟨k₁, v₁⟩ := p
    by_cases h₁ : k₁ = k
    · subst h₁
      simp [alookup] at h
      simp [amodify, alookup, h]
    · have h₂ : k ≠ k₁ := fun hc => h₁ hc.symm
      simp only [alookup, h₂, if_false] at h
      simp [amodify, alookup, h₁, h₂, ih h]

theorem copyLoop_noFail_spec (cid : String) :
    ∀ (keys : List String) (fs : FS) (tick : Nat) (acc : List String)
        (d : CommitDir),
      keys.Nodup → alookup cid fs.commits = some d →
      ∃ fs' t' d',
        copyLoop noFail cid keys fs tick acc
          = Except.ok (fs', t',
              acc ++ keys.filter (fun f => (alookup f fs.working).isSome))
        ∧ fs' = { fs with commits := fs'.commits }
        ∧ alookup cid fs'.commits = some d'
        ∧ (∀ f, f ∈ keys → (alookup f fs.working).isSome = true →
            alookup f d'.files = alookup f fs.working)
        ∧ (∀ f, f ∉ keys → alookup f d'.files = alookup f d.files) := by
  intro keys
  induction keys with
  | nil =>
    intro fs tick acc d hnd hd
    refine ⟨fs, tick, d, ?_, rfl, hd, ?_, ?_⟩
    · simp [copyLoop]
    · intro f hf
      simp at hf
    · intro f _
      rfl
  | cons g rest ih =>
    intro fs tick acc d hnd hd
    have hgr : g ∉ rest := (List.nodup_cons.mp hnd).1
    have hnd' : rest.Nodup := (List.nodup_cons.mp hnd).2
    simp only [copyLoop]
    cases hw : alookup g fs.working with
    | none =>
      obtain ⟨fs', t', d', hcl, hframe, hlkp, hmem, hnotmem⟩ :=
        ih fs tick acc d hnd' hd
      refine ⟨fs', t', d', ?_, hframe, hlkp, ?_, ?_⟩
      · have hflt : (g :: rest).filter (fun f => (alookup f fs.working).isSome)
            = rest.filter (fun f => (alookup f fs.working).isSome) := by
          rw [List.filter_cons]
          simp [hw]
        rw [hflt]
        exact hcl
      · intro f hf hs
        rcases List.mem_cons.mp hf with rfl | hf'
        · rw [hw] at hs
          simp at hs
        · exact hmem f hf' hs
      · intro f hf
        exact hnotmem f (fun hc => hf (List.mem_cons_of_mem _ hc))
    | some b =>
      have hdp : alookup cid (putCommitFile fs cid g b).commits
          = some { d with files := aset g b d.files } := by
        show alookup cid (amodify cid
            (fun dd => { dd with files := aset g b dd.files }) fs.commits) = _
        exact alookup_amodify_self cid _ fs.commits d hd
      obtain ⟨fs', t', d', hcl, hframe, hlkp, hmem, hnotmem⟩ :=
        ih (putCommitFile fs cid g b) (tick + 2) (acc ++ [g])
          { d with files := aset g b d.files } hnd' hdp
      refine ⟨fs', t', d', ?_, hframe, hlkp, ?_, ?_⟩
      · have hflt : (g :: rest).filter (fun f => (alookup f fs.working).isSome)
            = g :: rest.filter (fun f => (alookup f fs.working).isSome) := by
          rw [List.filter_cons]
          simp [hw]
        rw [hflt, show acc ++ g :: rest.filter
              (fun f => (alookup f fs.working).isSome)
            = (acc ++ [g]) ++ rest.filter
              (fun f => (alookup f fs.working).isSome) by simp]
        exact hcl
      · intro f hf hs
        rcases List.mem_cons.mp hf with rfl | hf'
        · exact (hnotmem f hgr).trans
            ((alookup_aset_self f b d.files).trans hw.symm)
        · exact hmem f hf' hs
      · intro f hf
        have hfr : f ∉ rest := fun hc => hf (List.mem_cons_of_mem _ hc)
        have hfg : f ≠ g := fun hc => hf (hc ▸ List.mem_cons_self _ _)
        exact (hnotmem f hfr).trans (alookup_aset_ne f g b d.files hfg)

theorem restoreLoop_not_mem (oracle : Oracle)
    (dirFiles : List (String × Bytes)) :
    ∀ (files : List String) (working : List (String × Bytes)) (tick : Nat)
        (f : String), f ∉ files →
      alookup f (restoreLoop oracle dirFiles files working tick)
        = alookup f working := by
  intro files
  induction files with
  | nil =>
    intro working tick f _
    rfl
  | cons g rest ih =>
    intro working tick f hf
    have hfr : f ∉ rest := fun hc => hf (List.mem_cons_of_mem _ hc)
    have hfg : f ≠ g := fun hc => hf (hc ▸ List.mem_cons_self _ _)
    simp only [restoreLoop]
    split
    · exact ih working tick f hfr
    · rename_i b hd
      split
      · exact ih working (tick + 1) f hfr
      · exact (ih (aset g b working) (tick + 1) f hfr).trans
          (alookup_aset_ne f g b working hfg)

theorem restoreLoop_noFail_mem (dirFiles : List (String × Bytes)) :
    ∀ (files : List String) (working : List (String × Bytes)) (tick : Nat)
        (f : String),
      files.Nodup → f ∈ files → (alookup f dirFiles).isSome = true →
      alookup f (restoreLoop noFail dirFiles files working tick)
        = alookup f dirFiles := by
  intro files
  induction files with
  | nil =>
    intro working tick f _ hf
    simp at hf
  | cons g rest ih =>
    intro working tick f hnd hf hs
    have hgr : g ∉ rest := (List.nodup_cons.mp hnd).1
    have hnd' : rest.Nodup := (List.nodup_cons.mp hnd).2
    simp only [restoreLoop]
    rcases List.mem_cons.mp hf with rfl | hf'
    · obtain ⟨b, hb⟩ := Option.isSome_iff_exists.mp hs
      rw [hb]
      exact (restoreLoop_not_mem noFail dirFiles rest (aset f b working)
          (tick + 1) f hgr).trans (alookup_aset_self f b working)
    · cases hd : alookup g dirFiles with
      | none => exact ih working tick f hnd' hf' hs
      | some b => exact ih (aset g b working) (tick + 1) f hnd' hf' hs

theorem refPhase_noFail (fs : FS) (cid : String) (branch : Option String)
    (t : Nat) :
    ∃ fs₄ t₂, refPhase noFail fs cid branch t = Except.ok (fs₄, t₂)
      ∧ fs₄.commits = fs.commits ∧ fs₄.working = fs.working
      ∧ fs₄.index = fs.index := by
  cases branch with
  | none => exact ⟨_, _, rfl, rfl, rfl, rfl⟩
  | some b => exact ⟨_, _, rfl, rfl, rfl, rfl⟩

/-- Unfolding of a successful restore: when the commit directory
exists, the result is `True` with each listed snapshot copied back. -/
theorem restore_spec (oracle : Oracle) (fs : FS) (cid : String)
    (dir : CommitDir) (h : alookup cid fs.commits = some dir) :
    restore_files_from_commit oracle fs cid
      = (true, { fs with working := (restoreLoop oracle dir.files
          (dir.meta.elim [] (fun m => m.files)) fs.working 0) }) := by
  unfold restore_files_from_commit
  rw [h]

/-- C1 (confirmed): committing the staged files succeeds in a
failure-free environment, and afterwards — from *any* repository state
with the same commit store, however the working tree has changed —
checking that commit out restores, for every path in the commit's
`files` list, exactly the bytes the path had in the working tree at
commit time. -/
theorem commit_checkout_round_trip (hashC : Bytes → String)
    (genId : String → String → Option String → String)
    (message timestamp : String) (fs : FS)
    (hne : fs.index.staged_files ≠ [])
    (hnodup : (fs.index.staged_files.map Prod.fst).Nodup)
    (hfresh : alookup (genId message timestamp (get_head fs)) fs.commits = none) :
    (cmd_commit hashC genId message false timestamp noFail fs).1 = 0
    ∧ ∀ fsW : FS,
      fsW.commits
          = (cmd_commit hashC genId message false timestamp noFail fs).2.commits →
      (restore_files_from_commit noFail fsW
          (genId message timestamp (get_head fs))).1 = true
      ∧ ∀ f ∈ metaFilesOf
            (cmd_commit hashC genId message false timestamp noFail fs).2
            (genId message timestamp (get_head fs)),
          alookup f (restore_files_from_commit noFail fsW
              (genId message timestamp (get_head fs))).2.working
            = alookup f fs.working
          ∧ (alookup f fs.working).isSome = true := by
  set cid := genId message timestamp (get_head fs) with hcid
  set keys := fs.index.staged_files.map Prod.fst with hkeys
  set metaOf := mkCommitMeta fs cid message timestamp (get_head fs)
    (get_current_branch fs) with hmo
  have hmk : makeCommitDir fs cid
      = { fs with commits := fs.commits ++ [(cid, ⟨[], none⟩)] } := by
    unfold makeCommitDir
    rw [if_neg (by rw [hfresh]; simp)]
  have hd0 : alookup cid
      (({ fs with commits := fs.commits ++ [(cid, (⟨[], none⟩ : CommitDir))] } : FS)).commits
      = some ⟨[], none⟩ := alookup_append_self cid _ fs.commits hfresh
  obtain ⟨fs', t', d', hcl, hframe, hlkp, hmem, hnotmem⟩ :=
    copyLoop_noFail_spec cid keys
      { fs with commits := fs.commits ++ [(cid, ⟨[], none⟩)] } 1 [] ⟨[], none⟩
      hnodup hd0
  have hmem' : ∀ f, f ∈ keys → (alookup f fs.working).isSome = true →
      alookup f d'.files = alookup f fs.working := hmem
  have hcl' : copyLoop noFail cid keys (makeCommitDir fs cid) 1 []
      = Except.ok (fs', t',
          keys.filter (fun f => (alookup f fs.working).isSome)) := by
    rw [hmk]
    exact hcl
  set files := keys.filter (fun f => (alookup f fs.working).isSome) with hfiles
  have hsnap : snapshotPhase noFail fs cid keys metaOf
      = Except.ok (putCommitMeta fs' cid (metaOf files), t' + 2, files) := by
    simp only [snapshotPhase, hcl']
    simp [noFail]
  obtain ⟨fs₄, t₂, hrp, hc4, hw4, hi4⟩ :=
    refPhase_noFail (putCommitMeta fs' cid (metaOf files)) cid
      (get_current_branch fs) (t' + 2)
  have hcc : cmd_commit hashC genId message false timestamp noFail fs
      = (0, { fs₄ with index := { fs.index with staged_files := [] } }) := by
    simp only [cmd_commit]
    rw [show commitIndexOf hashC fs false = fs.index from rfl]
    rw [if_neg hne, ← hcid, ← hkeys, ← hmo]
    simp only [hsnap, hrp]
    simp [noFail]
  have hmlk4 : alookup cid fs₄.commits
      = some { d' with meta := some (metaOf files) } := by
    rw [hc4]
    show alookup cid (amodify cid
        (fun dd => { dd with meta := some (metaOf files) }) fs'.commits) = _
    exact alookup_amodify_self cid _ fs'.commits d' hlkp
  have hmfc : metaFilesOf
      (cmd_commit hashC genId message false timestamp noFail fs).2 cid
      = files := by
    rw [hcc]
    unfold metaFilesOf
    show ((alookup cid fs₄.commits).bind (fun dd => dd.meta)).elim []
      (fun m => m.files) = files
    rw [hmlk4]
    rfl
  constructor
  · rw [hcc]
  · intro fsW hcw
    rw [hcc] at hcw
    have hcw₂ : fsW.commits = fs₄.commits := hcw
    have hmlk : alookup cid fsW.commits
        = some { d' with meta := some (metaOf files) } := by
      rw [hcw₂]
      exact hmlk4
    have hrest := restore_spec noFail fsW cid
      { d' with meta := some (metaOf files) } hmlk
    constructor
    · rw [hrest]
    · intro f hf
      have hf₂ : f ∈ files := by
        rw [hmfc] at hf
        exact hf
      have hkf : f ∈ keys := (List.mem_filter.mp hf₂).1
      have hps : (alookup f fs.working).isSome = true := by
        have := (List.mem_filter.mp hf₂).2
        simpa using this
      refine ⟨?_, hps⟩
      rw [hrest]
      have hdm : alookup f d'.files = alookup f fs.working := hmem' f hkf hps
      have hsome : (alookup f d'.files).isSome = true := by
        rw [hdm]
        exact hps
      have hnodf : ((metaOf files).files).Nodup := by
        show files.Nodup
        exact hnodup.filter _
      have hfm : f ∈ (metaOf files).files := hf₂
      exact (restoreLoop_noFail_mem d'.files ((metaOf files).files)
        fsW.working 0 f hnodf hfm hsome).trans hdm

/-- C1, witness: in the one-file repository `commitFS` the commit
succeeds and the round trip restores the file bytewise from any
same-store state. -/
theorem commit_checkout_round_trip_witness :
    (cmd_commit constHash constGen "first" false "ts" noFail commitFS).1 = 0
    ∧ ∀ fsW : FS,
      fsW.commits
          = (cmd_commit constHash constGen "first" false "ts" noFail commitFS).2.commits →
      (restore_files_from_commit noFail fsW
          (constGen "first" "ts" (get_head commitFS))).1 = true
      ∧ ∀ f ∈ metaFilesOf
            (cmd_commit constHash constGen "first" false "ts" noFail commitFS).2
            (constGen "first" "ts" (get_head commitFS)),
          alookup f (restore_files_from_commit noFail fsW
              (constGen "first" "ts" (get_head commitFS))).2.working
            = alookup f commitFS.working
          ∧ (alookup f commitFS.working).isSome = true :=
  commit_checkout_round_trip constHash constGen "first" "ts" commitFS
    (by decide) (by decide) (by rfl)
